import Mathlib

/-!
Verification of the rapidcheck value-generation and shrinking core
(`include/rapidcheck/detail/Arbitrary.hpp`).

The integral generator `Arbitrary<T>::operator()` is embedded as
`arbitraryInt`, parametrised by the number of value bits (`digits`, as in
`std::numeric_limits<T>::digits`), signedness, the reference size constant
`R` (`gen::kReferenceSize`), the ambient size, and the random atom drawn
from the engine.  The shrink side (`shrink::constant`, `shrink::towards`,
`shrink::sequentially`, `shrink::map`, `shrink::nothing`) is embedded over
`List`.  Floating-point shrinking is modelled over exact rationals: the
operations it uses (negation, truncation, absolute value, comparison) are
exact in IEEE arithmetic, so the candidate structure is preserved.
-/

namespace RC

/-- Modelled from the spec: `RandomEngine::Atom` (declared in the missing
`RandomEngine.h`) is a fixed-width unsigned integer; the spec gives 64 bits
as the atom width. -/
def atomBits : Nat := 64

/-- The value of `std::numeric_limits<RandomEngine::Atom>::max()`, named
`randIntMax` in `Arbitrary<T>::operator()`. -/
def randIntMax : Nat := 2 ^ atomBits - 1

/-- The magnitude mask computed by `Arbitrary<T>::operator()`:
`~((randIntMax - 1) << (nBits - 1))`, in 64-bit unsigned arithmetic
(complement is xor with the all-ones word, the shift wraps modulo `2^64`). -/
def maskDef (nBits : Nat) : Nat :=
  randIntMax ^^^ (((randIntMax - 1) <<< (nBits - 1)) % 2 ^ atomBits)

/-- The bit count computed by `Arbitrary<T>::operator()`: `size` is first
clamped by `std::min(gen::currentSize(), gen::kReferenceSize)`, then
`nBits = (size * digits) / kReferenceSize`. -/
def nBitsOf (digits R size : Nat) : Nat :=
  (min size R) * digits / R

/-- Embedding of `Arbitrary<T>::operator()` for an integral type `T` with
`digits` value bits (`std::numeric_limits<T>::digits`) and the given
signedness, at reference size `R`, ambient size `size`, consuming the single
random atom `rawAtom` (reduced to the 64-bit atom width).  The cast
`static_cast<T>(r & mask)` never overflows because `nBits <= digits`, and
the conditional negation `x *= ... ? 1 : -1` stays within `T`, so both are
embedded as exact integer operations. -/
def arbitraryInt (digits : Nat) (signed : Bool) (R size rawAtom : Nat) : Int :=
  let r := rawAtom % 2 ^ atomBits
  let nBits := nBitsOf digits R size
  if nBits = 0 then 0
  else
    let x : Int := ((r &&& maskDef nBits : Nat) : Int)
    if signed then
      if r >>> (atomBits - 1) = 0 then x else -x
    else x

/-- The generator drawing its atom from an explicit atom stream: the C++
code calls `randomEngine->nextAtom()` exactly once, before the `nBits`
computation, so it consumes the head of the stream and leaves the rest
untouched. -/
def arbitraryIntStream (digits : Nat) (signed : Bool) (R size : Nat) :
    List Nat → Option (Int × List Nat)
  | [] => none
  | r :: rest => some (arbitraryInt digits signed R size r, rest)

/-- Modelled from the spec: `shrink::constant` yields exactly the given
literal candidates, in the given order, once each. -/
def constant {α : Type} (l : List α) : List α := l

/-- Modelled from the spec: `shrink::sequentially` concatenates candidate
sequences in order; later sequences come only after earlier ones. -/
def sequentially {α : Type} (l1 l2 : List α) : List α := l1 ++ l2

/-- Modelled from the spec: `shrink::nothing` is the empty candidate
sequence. -/
def nothing {α : Type} : List α := []

/-- Modelled from the spec: `shrink::map` maps every candidate of a
sequence through a function, preserving order. -/
def shrinkMap {α β : Type} (f : α → β) (l : List α) : List β := l.map f

/-- Helper for `towards`: structurally recursive worker producing the
sequence of repeatedly halved distances; the fuel bounds the recursion
depth and is always sufficient when it starts at `n` itself, since halving
reaches `0` after at most `n` steps. -/
def halveListAux (fuel n : Nat) : List Nat :=
  match fuel with
  | 0 => []
  | fuel + 1 => if n = 0 then [] else (n / 2) :: halveListAux fuel (n / 2)

/-- Helper for `towards`: the sequence `n/2, n/4, ...` of repeatedly halved
distances, down to and including `0`, empty when `n = 0`. -/
def halveList (n : Nat) : List Nat := halveListAux n n

/-- Modelled from the spec: `shrink::towards value target` yields a
monotonic sequence of candidates strictly between `value` and `target`
(inclusive of `target`), by repeated bisection: the distance is halved at
each step, rounding toward the target, terminating when successive
candidates stop changing. -/
def towards (value target : Int) : List Int :=
  let d := value - target
  (halveList d.natAbs).map (fun k => target + Int.sign d * (k : Int))

/-- Two's-complement negation at width `W` bits: the value `-v` wrapped
into `[-2^(W-1), 2^(W-1))`.  For every representable `v` other than the
minimum this is the mathematical `-v`; for the minimum it is `v` itself. -/
def wrapNeg (W : Nat) (v : Int) : Int :=
  let u := (-v) % (2 ^ W : Int)
  if u < 2 ^ (W - 1) then u else u - 2 ^ W

/-- Embedding of `Arbitrary<T>::shrink` for an integral type `T` of `W`
bits: a constants vector holding `-value` when `value < 0` (negation in the
type, so wrapping at the minimum value), sequenced before
`shrink::towards(value, 0)`. -/
def arbitraryShrink (W : Nat) (value : Int) : List Int :=
  let constants : List Int := if value < 0 then [wrapNeg W value] else []
  sequentially (constant constants) (towards value 0)

/-- Embedding of `Arbitrary<std::pair<T1, T2>>::shrink`, parametric in the
component shrink functions (`gen::arbitrary<Ti>().shrink`): shrinks of the
first component paired with the untouched second, sequenced before shrinks
of the second component paired with the untouched first. -/
def pairShrink {α β : Type} (shrink1 : α → List α) (shrink2 : β → List β)
    (p : α × β) : List (α × β) :=
  sequentially
    (shrinkMap (fun x => (x, p.2)) (shrink1 p.1))
    (shrinkMap (fun y => (p.1, y)) (shrink2 p.2))

/-- Embedding of `Arbitrary<bool>::operator()`: draw one byte via
`gen::arbitrary<uint8_t>` rescaled to `kReferenceSize` (`gen::resize`,
modelled from the spec: it rebinds the ambient size for the sub-generation),
and test its lowest bit against zero.  The ambient `size` parameter is
present but, as in the source, not consulted. -/
def arbitraryBool (R size r : Nat) : Bool :=
  decide ((arbitraryInt 8 false R R r).natAbs &&& 1 = 0)

/-- Embedding of `Arbitrary<bool>::shrink`: `true` shrinks to the constant
candidate `false`; `false` has no candidates. -/
def arbitraryBoolShrink (value : Bool) : List Bool :=
  if value then constant [false] else nothing

/-- Embedding of `std::trunc` on an exact rational: integer truncation
toward zero (`Int.tdiv` is C-style truncating division and `den` is
positive). -/
def trunc (v : ℚ) : ℚ := ((Int.tdiv v.num (v.den : Int) : Int) : ℚ)

/-- Embedding of `ArbitraryReal<T>::shrink` over exact rationals: a
constants vector receiving `-value` when `value < 0`, then the truncation
of `value` when that truncation has strictly smaller magnitude; the result
is `shrink::constant` of that vector only, with no bisection sequence. -/
def arbitraryRealShrink (v : ℚ) : List ℚ :=
  let constants : List ℚ := if v < 0 then [-v] else []
  let constants :=
    if |trunc v| < |v| then constants ++ [trunc v] else constants
  constant constants

/-- The mask keeps exactly the low `nBits` bits: for every
`1 ≤ nBits ≤ 64` it equals `2 ^ nBits - 1`. -/
theorem maskDef_eq_aux : ∀ n < 65, 1 ≤ n → maskDef n = 2 ^ n - 1 := by decide

theorem maskDef_eq (n : Nat) (h1 : 1 ≤ n) (h2 : n ≤ 64) :
    maskDef n = 2 ^ n - 1 :=
  maskDef_eq_aux n (by omega) h1

/-- The computed bit count never exceeds the type width. -/
theorem nBitsOf_le (digits R size : Nat) (hR : 0 < R) :
    nBitsOf digits R size ≤ digits := by
  unfold nBitsOf
  calc (min size R) * digits / R ≤ R * digits / R :=
        Nat.div_le_div_right (Nat.mul_le_mul_right digits (min_le_right size R))
    _ = digits := Nat.mul_div_cancel_left digits hR

/-- At size equal to the reference size, the bit count is the full width. -/
theorem nBitsOf_ref (digits R : Nat) (hR : 0 < R) :
    nBitsOf digits R R = digits := by
  unfold nBitsOf
  rw [min_self, Nat.mul_div_cancel_left digits hR]

/-- Whatever the sign handling does, the magnitude of the produced value is
the atom masked by the computed mask. -/
theorem arbitraryInt_natAbs (digits : Nat) (signed : Bool) (R size r : Nat)
    (hn : ¬ nBitsOf digits R size = 0) :
    (arbitraryInt digits signed R size r).natAbs
      = (r % 2 ^ atomBits) &&& maskDef (nBitsOf digits R size) := by
  unfold arbitraryInt
  by_cases hb : (r % 2 ^ atomBits) >>> (atomBits - 1) = 0 <;>
    cases signed <;>
    simp [hn, hb]

/-- C1: for an integral type of width `digits`, generation uses
`nBits = floor(size * digits / ReferenceSize)` significant bits: at
`size = ReferenceSize` the bit count equals the width, an 8-bit unsigned
integer at full size can come out as `255` for some atom, at `size = 0` the
bit count is `0`, and whenever the bit count is `0` the generator returns
`0` for every atom. -/
theorem intGen_nBits_boundaries (digits R : Nat) (hR : 0 < R) :
    nBitsOf digits R R = digits
    ∧ nBitsOf digits R 0 = 0
    ∧ (∀ (signed : Bool) (size r : Nat), nBitsOf digits R size = 0 →
        arbitraryInt digits signed R size r = 0)
    ∧ (∃ r, arbitraryInt 8 false R R r = 255) := by
  refine ⟨nBitsOf_ref digits R hR, ?_, ?_, ?_⟩
  · unfold nBitsOf
    simp
  · intro signed size r h
    unfold arbitraryInt
    simp [h]
  · refine ⟨255, ?_⟩
    unfold arbitraryInt
    rw [nBitsOf_ref 8 R hR]
    decide

theorem intGen_nBits_boundaries_witness :
    0 < 100 ∧ nBitsOf 8 100 100 = 8 :=
  ⟨by decide, (intGen_nBits_boundaries 8 100 (by decide)).1⟩

/-- C10: the ambient size is clamped with `min(currentSize, kReferenceSize)`
before `nBits` is computed, so any size at or above the reference size
produces exactly the result at the reference size, for the same atom. -/
theorem intGen_size_clamped (digits : Nat) (signed : Bool) (R size r : Nat)
    (h : R ≤ size) :
    arbitraryInt digits signed R size r = arbitraryInt digits signed R R r := by
  have hn : nBitsOf digits R size = nBitsOf digits R R := by
    unfold nBitsOf
    rw [Nat.min_eq_right h, min_self]
  unfold arbitraryInt
  rw [hn]

theorem intGen_size_clamped_witness :
    100 ≤ 250 ∧ arbitraryInt 8 false 100 250 77 = arbitraryInt 8 false 100 100 77 :=
  ⟨by decide, intGen_size_clamped 8 false 100 250 77 (by decide)⟩

/-- C2 counterexample: the claim says the produced magnitude is the atom
masked to its low `nBits - 1` bits, hence strictly below `2 ^ (nBits - 1)`;
but for an 8-bit unsigned type at full size (`nBits = 8`) and atom `255`
the code produces `255`, which is not below `2 ^ 7 = 128` and is not
`255` masked to `7` bits (which would be `127`). -/
theorem intGen_mask_counterexample :
    nBitsOf 8 100 100 = 8
    ∧ arbitraryInt 8 false 100 100 255 = 255
    ∧ ¬ (arbitraryInt 8 false 100 100 255).natAbs
        < 2 ^ (nBitsOf 8 100 100 - 1)
    ∧ ¬ (arbitraryInt 8 false 100 100 255).natAbs
        = 255 &&& (2 ^ (nBitsOf 8 100 100 - 1) - 1) := by decide

/-- C2 amended: whenever `nBits ≥ 1`, the magnitude of the produced value
is the atom masked to its low `nBits` bits (the mask
`~((randIntMax - 1) << (nBits - 1))` equals `2 ^ nBits - 1`), so the
produced magnitude is always strictly below `2 ^ nBits`. -/
theorem intGen_mask_magnitude (digits : Nat) (signed : Bool) (R size r : Nat)
    (hR : 0 < R) (hd : digits ≤ atomBits) (hn : 1 ≤ nBitsOf digits R size) :
    (arbitraryInt digits signed R size r).natAbs
      = (r % 2 ^ atomBits) &&& (2 ^ nBitsOf digits R size - 1)
    ∧ (arbitraryInt digits signed R size r).natAbs
        < 2 ^ nBitsOf digits R size := by
  have hle : nBitsOf digits R size ≤ 64 :=
    le_trans (nBitsOf_le digits R size hR) hd
  have hmask : maskDef (nBitsOf digits R size)
      = 2 ^ nBitsOf digits R size - 1 := maskDef_eq _ hn hle
  have habs : (arbitraryInt digits signed R size r).natAbs
      = (r % 2 ^ atomBits) &&& (2 ^ nBitsOf digits R size - 1) := by
    rw [arbitraryInt_natAbs digits signed R size r (by omega), hmask]
  refine ⟨habs, ?_⟩
  rw [habs]
  have hpos : 0 < 2 ^ nBitsOf digits R size := Nat.pos_pow_of_pos _ (by omega)
  have hand : (r % 2 ^ atomBits) &&& (2 ^ nBitsOf digits R size - 1)
      ≤ 2 ^ nBitsOf digits R size - 1 := Nat.and_le_right
  omega

theorem intGen_mask_magnitude_witness :
    (0 < 100 ∧ 8 ≤ atomBits ∧ 1 ≤ nBitsOf 8 100 100)
    ∧ (arbitraryInt 8 false 100 100 255).natAbs
        = (255 % 2 ^ atomBits) &&& (2 ^ nBitsOf 8 100 100 - 1) :=
  ⟨⟨by decide, by decide, by decide⟩,
   (intGen_mask_magnitude 8 false 100 100 255 (by decide) (by decide)
     (by decide)).1⟩

/-- C4: for a signed integral type, the sign of the produced value is
selected by the topmost bit (bit `atomBits - 1`) of the same single atom
whose low bits supply the magnitude; every bit kept by the magnitude mask
lies strictly below that position; and exactly one atom is consumed from
the stream per produced integer. -/
theorem intGen_sign_from_top_bit (digits R size r : Nat)
    (hR : 0 < R) (hd : digits < atomBits) (hn : 1 ≤ nBitsOf digits R size) :
    (arbitraryInt digits true R size r
      = (if Nat.testBit (r % 2 ^ atomBits) (atomBits - 1) then -1 else 1)
        * (((r % 2 ^ atomBits) &&& maskDef (nBitsOf digits R size) : Nat) : Int))
    ∧ (∀ i, Nat.testBit (maskDef (nBitsOf digits R size)) i = true →
        i < atomBits - 1)
    ∧ (∀ rest : List Nat, arbitraryIntStream digits true R size (r :: rest)
        = some (arbitraryInt digits true R size r, rest)) := by
  have hA : atomBits = 64 := rfl
  have hle : nBitsOf digits R size ≤ digits := nBitsOf_le digits R size hR
  have hmask : maskDef (nBitsOf digits R size)
      = 2 ^ nBitsOf digits R size - 1 := maskDef_eq _ hn (by omega)
  refine ⟨?_, ?_, fun rest => rfl⟩
  · have hrlt : r % 2 ^ atomBits < 2 ^ atomBits :=
      Nat.mod_lt r (Nat.pos_pow_of_pos _ (by omega))
    have hq : (r % 2 ^ atomBits) >>> (atomBits - 1)
        = (r % 2 ^ atomBits) / 2 ^ (atomBits - 1) :=
      Nat.shiftRight_eq_div_pow _ _
    have hqlt : (r % 2 ^ atomBits) / 2 ^ (atomBits - 1) < 2 := by
      apply Nat.div_lt_of_lt_mul
      calc r % 2 ^ atomBits < 2 ^ atomBits := hrlt
        _ = 2 ^ (atomBits - 1) * 2 := by
          rw [← pow_succ]
          norm_num [hA]
    have htb : Nat.testBit (r % 2 ^ atomBits) (atomBits - 1)
        = decide ((r % 2 ^ atomBits) / 2 ^ (atomBits - 1) % 2 = 1) :=
      Nat.testBit_to_div_mod
    unfold arbitraryInt
    rw [if_neg (by omega), htb]
    have h01 : ∀ n : Nat, n < 2 → n = 0 ∨ n = 1 := fun n hn => by omega
    rcases h01 _ hqlt with h1 | h1
    · rw [hq, h1]
      norm_num
    · rw [hq, h1]
      norm_num
  · intro i hi
    rw [hmask, Nat.testBit_two_pow_sub_one] at hi
    have : i < nBitsOf digits R size := of_decide_eq_true hi
    omega

theorem intGen_sign_from_top_bit_witness :
    (0 < 100 ∧ 31 < atomBits ∧ 1 ≤ nBitsOf 31 100 100)
    ∧ arbitraryInt 31 true 100 100 5
      = (if Nat.testBit (5 % 2 ^ atomBits) (atomBits - 1) then -1 else 1)
        * (((5 % 2 ^ atomBits) &&& maskDef (nBitsOf 31 100 100) : Nat) : Int) :=
  ⟨⟨by decide, by decide, by decide⟩,
   (intGen_sign_from_top_bit 31 100 100 5 (by decide) (by decide)
     (by decide)).1⟩

/-- C3: integral shrinking yields exactly the constant candidate (the
negation of the value, when negative) followed by the `towards value 0`
bisection sequence; for every representable negative value other than the
minimum the constant candidate is the mathematical `-v`; in particular
shrinking `-5` yields `5` first, followed by candidates of strictly
decreasing magnitude toward `0`. -/
theorem intShrink_order :
    (∀ (W : Nat) (v : Int), arbitraryShrink W v
        = (if v < 0 then [wrapNeg W v] else []) ++ towards v 0)
    ∧ (∀ (W : Nat) (v : Int), -(2 ^ (W - 1) : Int) < v → v < 0 →
        wrapNeg W v = -v)
    ∧ arbitraryShrink 64 (-5) = [5, -2, -1, 0]
    ∧ List.Chain' (fun a b : Int => b.natAbs < a.natAbs)
        (arbitraryShrink 64 (-5)) := by
  have hconc : arbitraryShrink 64 (-5) = [5, -2, -1, 0] := by decide
  refine ⟨fun W v => rfl, ?_, hconc, ?_⟩
  swap
  · rw [hconc]
    simp [List.chain'_cons]
  intro W v hlo hneg
  have hle : (2 : Int) ^ (W - 1) ≤ 2 ^ W :=
    pow_le_pow_right₀ one_le_two (Nat.sub_le W 1)
  unfold wrapNeg
  rw [Int.emod_eq_of_lt (by omega) (by omega)]
  rw [if_pos (by omega)]

theorem intShrink_order_witness :
    (-(2 ^ (32 - 1) : Int) < -5 ∧ (-5 : Int) < 0)
    ∧ wrapNeg 32 (-5) = -(-5) :=
  ⟨⟨by norm_num, by norm_num⟩, intShrink_order.2.1 32 (-5) (by norm_num)
    (by norm_num)⟩

/-- C9: for the minimum value `m = -2^(W-1)` of a signed `W`-bit type,
`m < 0` holds, so the shrink emits the type-level negation of `m` as its
first constant candidate; under two's-complement wraparound that negation
equals `m` itself, so the first candidate offered equals the value being
shrunk rather than being strictly smaller in magnitude. -/
theorem intShrink_min_wraps (W : Nat) (m : Int) (hW : 1 ≤ W)
    (hm : m = -(2 ^ (W - 1) : Int)) :
    m < 0 ∧ wrapNeg W m = m ∧ (arbitraryShrink W m).head? = some m := by
  subst hm
  have h1 : (0 : Int) < 2 ^ (W - 1) := by positivity
  have h2 : (2 : Int) ^ (W - 1) * 2 = 2 ^ W := by
    rw [← pow_succ]
    congr 1
    omega
  have hwrap : wrapNeg W (-(2 ^ (W - 1) : Int)) = -(2 ^ (W - 1) : Int) := by
    unfold wrapNeg
    rw [neg_neg, Int.emod_eq_of_lt (by omega) (by omega)]
    rw [if_neg (lt_irrefl _)]
    omega
  refine ⟨by omega, hwrap, ?_⟩
  unfold arbitraryShrink
  rw [if_pos (by omega)]
  simp [sequentially, constant, hwrap]

theorem intShrink_min_wraps_witness :
    (1 ≤ 64 ∧ (-(2 ^ 63) : Int) = -(2 ^ (64 - 1) : Int))
    ∧ ((-(2 ^ 63) : Int) < 0
        ∧ wrapNeg 64 (-(2 ^ 63)) = -(2 ^ 63)
        ∧ (arbitraryShrink 64 (-(2 ^ 63))).head? = some (-(2 ^ 63))) :=
  ⟨⟨by norm_num, by norm_num⟩,
   intShrink_min_wraps 64 (-(2 ^ 63)) (by norm_num) (by norm_num)⟩

/-- C5: pair shrinking yields first every candidate obtained by shrinking
the first component with the second held fixed, and only afterwards every
candidate obtained by shrinking the second component with the first held
fixed; every yielded candidate differs from the input pair in at most one
component. -/
theorem pairShrink_order {α β : Type} (sh1 : α → List α) (sh2 : β → List β)
    (a : α) (b : β) :
    pairShrink sh1 sh2 (a, b)
      = ((sh1 a).map (fun x => (x, b))) ++ ((sh2 b).map (fun y => (a, y)))
    ∧ ∀ c ∈ pairShrink sh1 sh2 (a, b), c.1 = a ∨ c.2 = b := by
  refine ⟨rfl, ?_⟩
  intro c hc
  simp only [pairShrink, sequentially, shrinkMap, List.mem_append,
    List.mem_map] at hc
  rcases hc with ⟨x, _, rfl⟩ | ⟨y, _, rfl⟩
  · exact Or.inr rfl
  · exact Or.inl rfl

theorem pairShrink_order_witness :
    ((false, true) ∈ pairShrink arbitraryBoolShrink arbitraryBoolShrink
      (true, true))
    ∧ ((false, true).1 = true ∨ (false, true).2 = true) :=
  have h : (false, true) ∈ pairShrink arbitraryBoolShrink arbitraryBoolShrink
      (true, true) := by decide
  ⟨h, (pairShrink_order arbitraryBoolShrink arbitraryBoolShrink true true).2
    (false, true) h⟩

/-- C6: boolean generation ignores the ambient size parameter: for any two
sizes and the same atom the produced boolean is identical, because the byte
sub-generation is rescaled to the reference size, and the result is
determined by the lowest bit of that generated byte. -/
theorem boolGen_size_independent (R s1 s2 r : Nat) :
    arbitraryBool R s1 r = arbitraryBool R s2 r
    ∧ arbitraryBool R s1 r
        = ! Nat.testBit (arbitraryInt 8 false R R r).natAbs 0 := by
  refine ⟨rfl, ?_⟩
  unfold arbitraryBool
  rcases Nat.mod_two_eq_zero_or_one (arbitraryInt 8 false R R r).natAbs
    with h | h <;>
    simp [Nat.testBit_to_div_mod, Nat.and_one_is_mod, h]

/-- C7: shrinking the boolean `true` yields exactly the single candidate
`false`, and `false` has no shrink candidates, so that candidate is a
leaf. -/
theorem boolShrink_exact :
    arbitraryBoolShrink true = [false] ∧ arbitraryBoolShrink false = [] := by
  decide

/-- C8: floating-point shrinking yields exactly the constant candidates
`-v` (when `v < 0`) followed by `trunc v` (when its magnitude is strictly
smaller than that of `v`), with no bisection sequence; a non-negative value
that is already integral therefore yields no candidates at all. -/
theorem realShrink_constants (v : ℚ) :
    arbitraryRealShrink v
      = (if v < 0 then [-v] else [])
        ++ (if |trunc v| < |v| then [trunc v] else [])
    ∧ (∀ n : ℤ, v = (n : ℚ) → 0 ≤ v → arbitraryRealShrink v = []) := by
  constructor
  · unfold arbitraryRealShrink
    by_cases h1 : v < 0 <;> by_cases h2 : |trunc v| < |v| <;>
      simp [constant, h1, h2]
  · rintro n rfl h0
    have ht : trunc ((n : ℚ)) = (n : ℚ) := by
      unfold trunc
      rw [Rat.num_intCast, Rat.den_intCast]
      norm_num
    have h2 : ¬ ((n : ℚ) < 0) := not_lt.mpr h0
    unfold arbitraryRealShrink
    rw [ht]
    simp [constant, h2]

theorem realShrink_constants_witness :
    ((3 : ℚ) = ((3 : ℤ) : ℚ) ∧ (0 : ℚ) ≤ 3)
    ∧ arbitraryRealShrink 3 = [] :=
  ⟨⟨by norm_num, by norm_num⟩,
   (realShrink_constants 3).2 3 (by norm_num) (by norm_num)⟩

end RC
